import Mathlib

/-!
Shallow embedding of `markov_clustering/mcl.py` (the Markov Cluster algorithm).

A matrix is modelled as a list of rows of rationals (`Mat`); real arithmetic
is idealized as exact rational arithmetic.  Both the dense (`numpy`) and the
sparse (`scipy.sparse`) storage forms denote the same logical matrix, so both
code paths of each function are embedded over `Mat`; where the two paths run
genuinely different algorithms (`expand`, `converged`) each algorithm is
embedded separately and the embedding carries the runtime `isspmatrix`
dispatch as a boolean flag.

Python exceptions are modelled with `Except PyErr`.
-/

namespace MCL

/-- Errors the program (or the libraries it calls) can raise.
`shapeError` is the error class named by the specification's error taxonomy;
nothing in `mcl.py` defines or raises it, it is included so that statements
can compare the errors actually raised against it. -/
inductive PyErr where
  /-- A failed Python `assert` statement (`AssertionError`), with its message. -/
  | assertionError (msg : String)
  /-- The error `np.linalg.matrix_power` raises on a non-square input
  (`ValueError`/`LinAlgError` depending on the numpy version). -/
  | numpyNonSquareError
  /-- The error scipy sparse `matrix ** power` raises on a non-square input
  (`TypeError('matrix is not square')`). -/
  | scipyNonSquareError
  /-- The `ShapeError` class that appears in the specification only. -/
  | shapeError
deriving DecidableEq, Repr

/-- A matrix: a list of rows.  Reading out of range yields 0, which also
models the implicit zero entries of a sparse matrix. -/
abbrev Mat := List (List ℚ)

/-- Number of rows (`matrix.shape[0]`). -/
def nRows (M : Mat) : ℕ := M.length

/-- Number of columns (`matrix.shape[1]`): length of the first row. -/
def nCols (M : Mat) : ℕ := (M.headD []).length

/-- Entry at row `i`, column `j`; 0 out of range (sparse implicit zero). -/
def entry (M : Mat) (i j : ℕ) : ℚ := (M.getD i []).getD j 0

/-- Well-formedness: all rows have the length `nCols M`.  Every numpy/scipy
matrix is rectangular by construction. -/
def Rect (M : Mat) : Prop := ∀ r ∈ M, r.length = nCols M

instance : DecidablePred Rect := fun M =>
  inferInstanceAs (Decidable (∀ r ∈ M, r.length = nCols M))

/-- `M` is a well-formed `n × n` matrix. -/
def Sq (n : ℕ) (M : Mat) : Prop := Rect M ∧ nRows M = n ∧ nCols M = n

instance (n : ℕ) (M : Mat) : Decidable (Sq n M) :=
  inferInstanceAs (Decidable (_ ∧ _ ∧ _))

/-- All (in-range) entries are non-negative. -/
def Nonneg (M : Mat) : Prop := ∀ i < nRows M, ∀ j < nCols M, 0 ≤ entry M i j

instance (M : Mat) : Decidable (Nonneg M) :=
  inferInstanceAs (Decidable (∀ i < nRows M, ∀ j < nCols M, 0 ≤ entry M i j))

/-- Build the `m × n` matrix with entries `f i j`. -/
def build (m n : ℕ) (f : ℕ → ℕ → ℚ) : Mat :=
  (List.range m).map fun i => (List.range n).map fun j => f i j

/-- Default relative tolerance of `np.allclose` / `sparse_allclose`. -/
def rtol : ℚ := 1 / 100000

/-- Default absolute tolerance of `np.allclose` / `sparse_allclose`. -/
def atol : ℚ := 1 / 100000000

/-- The module-level example graph `graph` of `mcl.py` (7-node adjacency
matrix: blocks `{0,1,2}` and `{3,4,5,6}` joined at node 3). -/
def graph : Mat :=
  [[1, 1, 1, 0, 0, 0, 0],
   [1, 1, 1, 0, 0, 0, 0],
   [1, 1, 1, 1, 0, 0, 0],
   [0, 0, 1, 1, 1, 0, 1],
   [0, 0, 0, 1, 1, 1, 1],
   [0, 0, 0, 0, 1, 1, 1],
   [0, 0, 0, 1, 1, 1, 1]]

/-- Column `j`'s L1 norm: `Σ_i |M[i,j]|`, as computed by
`sklearn.preprocessing.normalize(matrix, norm="l1", axis=0)`. -/
def colNorm (M : Mat) (j : ℕ) : ℚ := ∑ i ∈ Finset.range (nRows M), |entry M i j|

/-- `normalize(matrix)` from `mcl.py`:
`sklearn.preprocessing.normalize(matrix, norm="l1", axis=0)` divides each
column by its L1 norm, after replacing zero norms by 1 (sklearn's
`norms[norms == 0.0] = 1.0`), so zero columns stay zero. -/
def normalize (M : Mat) : Mat :=
  build (nRows M) (nCols M) fun i j =>
    entry M i j / (if colNorm M j = 0 then 1 else colNorm M j)

/-- Elementwise `p`-th power (`np.power(matrix, power)` on the dense path,
`matrix.power(power)` on the sparse path; both act entrywise, the sparse one
on the stored entries only, which agrees since `0 ^ p = 0` for `p > 0` and
the pipeline only ever uses positive inflation powers). -/
def elemPow (M : Mat) (p : ℕ) : Mat :=
  build (nRows M) (nCols M) fun i j => entry M i j ^ p

/-- `inflate(matrix, power)` from `mcl.py`: both the sparse branch
`normalize(matrix.power(power))` and the dense branch
`normalize(np.power(matrix, power))` are column normalization of the
elementwise power. -/
def inflate (M : Mat) (p : ℕ) : Mat := normalize (elemPow M p)

/-- `prune(matrix, threshold)` from `mcl.py`: the dense branch copies and runs
`pruned[pruned < threshold] = 0`; the sparse branch fills a fresh zero
`dok_matrix` with the entries `matrix >= threshold`.  Both leave entries
`≥ threshold` unchanged and zero the entries `< threshold`. -/
def prune (M : Mat) (t : ℚ) : Mat :=
  build (nRows M) (nCols M) fun i j => if entry M i j < t then 0 else entry M i j

/-- The diagonal-overwriting loop of `add_self_loops`:
`for i in range(shape[0]): new_matrix[i, i] = loop_value`. -/
def setDiag (M : Mat) (v : ℚ) : Mat :=
  build (nRows M) (nCols M) fun i j => if i = j then v else entry M i j

/-- `add_self_loops(matrix, loop_value)` from `mcl.py`: asserts
`shape[0] == shape[1]` (raising `AssertionError` with message
"Error, matrix is not square" otherwise), then sets every diagonal entry to
`loop_value` on a copy. -/
def add_self_loops (M : Mat) (v : ℚ) : Except PyErr Mat :=
  if nRows M = nCols M then .ok (setDiag M v)
  else .error (.assertionError "Error, matrix is not square")

/-- `np.allclose(matrix1, matrix2)` with the default tolerances: every entry
pair `(a, b)` satisfies `|a - b| ≤ atol + rtol * |b|`. -/
def allclose (a b : Mat) : Bool :=
  (List.range (nRows a)).all fun i => (List.range (nCols a)).all fun j =>
    decide (|entry a i j - entry b i j| ≤ atol + rtol * |entry b i j|)

/-- The entries of the matrix `c = np.abs(a - b) - rtol * np.abs(b)` computed
by `sparse_allclose`, flattened row-major. -/
def cList (a b : Mat) : List ℚ :=
  (List.range (nRows a)).flatMap fun i => (List.range (nCols a)).map fun j =>
    |entry a i j - entry b i j| - rtol * |entry b i j|

/-- `sparse_allclose(a, b)` from `mcl.py`: `c.max() <= atol` where
`c = np.abs(a - b) - rtol * np.abs(b)`.  On an empty matrix `c.max()` raises
(`numpy`/`scipy` zero-size reduction); the `none` branch value is arbitrary
and never relied upon (theorems assume at least one entry). -/
def sparse_allclose (a b : Mat) : Bool :=
  match (cList a b).max? with
  | some m => decide (m ≤ atol)
  | none => true

/-- `converged(matrix1, matrix2)` from `mcl.py`: dispatches on
`isspmatrix(matrix1) or isspmatrix(matrix2)` (the two boolean flags model the
storage forms of the two arguments) to `sparse_allclose` or `np.allclose`. -/
def converged (sp1 sp2 : Bool) (m1 m2 : Mat) : Bool :=
  if sp1 || sp2 then sparse_allclose m1 m2 else allclose m1 m2

/-- The `n × n` identity matrix (`np.identity` / `scipy.sparse.eye`). -/
def eye (n : ℕ) : Mat := build n n fun i j => if i = j then 1 else 0

/-- Matrix product (`np.dot` / sparse `*`): inner dimension read from the
left factor's column count. -/
def matMul (A B : Mat) : Mat :=
  build (nRows A) (nCols B) fun i j =>
    ∑ k ∈ Finset.range (nCols A), entry A i k * entry B k j

/-- Mathematical matrix power by repeated multiplication:
`matpow M 0 = I`, `matpow M (k+1) = matpow M k * M`. -/
def matpow (M : Mat) : ℕ → Mat
  | 0 => eye (nRows M)
  | k + 1 => matMul (matpow M k) M

/-- The binary-decomposition loop of `np.linalg.matrix_power`:
`while n > 0: z = a if z is None else z @ z; n, bit = divmod(n, 2);
if bit: result = z if result is None else result @ z`. -/
def npLoop (a : Mat) (n : ℕ) (z result : Option Mat) : Option Mat :=
  if h : n = 0 then result
  else
    let z' := z.elim a fun zv => matMul zv zv
    let result' := if n % 2 = 1 then some (result.elim z' fun r => matMul r z')
      else result
    npLoop a (n / 2) (some z') result'
termination_by n
decreasing_by exact Nat.div_lt_self (Nat.pos_of_ne_zero h) (by omega)

/-- `np.linalg.matrix_power(a, n)` for `n ≥ 0` (the dense branch of
`expand`): special cases `n = 0, 1, 2, 3`, then the binary decomposition
loop.  The loop always returns `some` for `n ≥ 1`; the `getD` default is
never reached. -/
def np_matrix_power (a : Mat) (n : ℕ) : Mat :=
  if n = 0 then eye (nRows a)
  else if n = 1 then a
  else if n = 2 then matMul a a
  else if n = 3 then matMul (matMul a a) a
  else (npLoop a n none none).getD (eye (nRows a))

/-- Scipy's `spmatrix.__pow__` for a non-negative integer exponent (the
sparse branch of `expand`): `0 → eye`, `1 → copy`, otherwise
`tmp = self ** (other // 2)`; `self * tmp * tmp` when odd, `tmp * tmp` when
even. -/
def spPow (a : Mat) (n : ℕ) : Mat :=
  if h0 : n = 0 then eye (nRows a)
  else if h1 : n = 1 then a
  else if n % 2 = 1 then matMul (matMul a (spPow a (n / 2))) (spPow a (n / 2))
  else matMul (spPow a (n / 2)) (spPow a (n / 2))
termination_by n
decreasing_by all_goals exact Nat.div_lt_self (by omega) (by omega)

/-- `expand(matrix, power)` from `mcl.py`: `matrix ** power` on the sparse
path, `np.linalg.matrix_power(matrix, power)` on the dense path (value
semantics; both libraries reject non-square inputs, see `expand_checked`). -/
def expand (sp : Bool) (M : Mat) (p : ℕ) : Mat :=
  if sp then spPow M p else np_matrix_power M p

/-- `expand` together with the squareness check the called library performs
before computing: `np.linalg.matrix_power` rejects a non-square input, and
scipy's `__pow__` starts with
`if self.shape[0] != self.shape[1]: raise TypeError('matrix is not square')`. -/
def expand_checked (sp : Bool) (M : Mat) (p : ℕ) : Except PyErr Mat :=
  if nRows M = nCols M then .ok (expand sp M p)
  else .error (if sp then .scipyNonSquareError else .numpyNonSquareError)

/-- `iterate(matrix, expansion, inflation, pruning)` from `mcl.py`: expand,
then inflate, then prune when `pruning > 0`. -/
def iterate (sp : Bool) (M : Mat) (expansion inflation : ℕ) (pruning : ℚ) : Mat :=
  let m1 := expand sp M expansion
  let m2 := inflate m1 inflation
  if 0 < pruning then prune m2 pruning else m2

/-- The `for i in range(iterations)` loop of `run_mcl`: snapshot, iterate,
break on convergence.  Returns the final matrix together with the iteration
index at which convergence was detected (`none` when the cap was exhausted
without convergence); the index models the printed
"Converged after i iterations". -/
def mclLoop (sp : Bool) (e p : ℕ) (pr : ℚ) : ℕ → ℕ → Mat → Mat × Option ℕ
  | 0, _, m => (m, none)
  | fuel + 1, i, m =>
    let last := m
    let cur := iterate sp m e p pr
    if converged sp sp cur last then (cur, some i)
    else mclLoop sp e p pr fuel (i + 1) cur

/-- `run_mcl(matrix, expansion, inflation, loop_value, iterations, pruning)`
from `mcl.py`: add self-loops (which asserts squareness), normalize, then run
the iteration loop; the last computed matrix is returned whether or not
convergence occurred. -/
def run_mcl (sp : Bool) (M : Mat) (expansion inflation : ℕ) (loop_value : ℚ)
    (iterations : ℕ) (pruning : ℚ) : Except PyErr Mat :=
  (add_self_loops M loop_value).map fun m0 =>
    (mclLoop sp expansion inflation pruning iterations 0 (normalize m0)).1

/-! ### Basic lemmas about `build` and `entry` -/

theorem getD_map_range {α : Type} (m i : ℕ) (g : ℕ → α) (d : α) :
    ((List.range m).map g).getD i d = if i < m then g i else d := by
  rw [List.getD_eq_getElem?_getD, List.getElem?_map]
  by_cases h : i < m
  · rw [List.getElem?_range h]
    simp [h]
  · rw [List.getElem?_eq_none (by simpa using Nat.le_of_not_lt h)]
    simp [h]

theorem getD_eq_getElem {α : Type} (l : List α) (d : α) {i : ℕ} (h : i < l.length) :
    l.getD i d = l[i] := by
  rw [List.getD_eq_getElem?_getD, List.getElem?_eq_getElem h]
  rfl

theorem entry_build (m n : ℕ) (f : ℕ → ℕ → ℚ) (i j : ℕ) :
    entry (build m n f) i j = if i < m then (if j < n then f i j else 0) else 0 := by
  unfold entry build
  rw [getD_map_range]
  by_cases hi : i < m
  · simp only [hi, if_true]
    rw [getD_map_range]
  · simp [hi]

theorem entry_build_lt {m n i j : ℕ} (f : ℕ → ℕ → ℚ) (hi : i < m) (hj : j < n) :
    entry (build m n f) i j = f i j := by
  rw [entry_build]
  simp [hi, hj]

theorem nRows_build (m n : ℕ) (f : ℕ → ℕ → ℚ) : nRows (build m n f) = m := by
  simp [nRows, build]

theorem nCols_build (m n : ℕ) (f : ℕ → ℕ → ℚ) :
    nCols (build m n f) = if m = 0 then 0 else n := by
  cases m with
  | zero => simp [nCols, build]
  | succ k => simp [nCols, build, List.range_succ_eq_map]

theorem rect_build (m n : ℕ) (f : ℕ → ℕ → ℚ) : Rect (build m n f) := by
  intro r hr
  rw [nCols_build]
  cases m with
  | zero => simp [build] at hr
  | succ k =>
    simp only [build, List.mem_map] at hr
    obtain ⟨i, _, rfl⟩ := hr
    simp

theorem sq_build (n : ℕ) (f : ℕ → ℕ → ℚ) : Sq n (build n n f) := by
  refine ⟨rect_build n n f, nRows_build n n f, ?_⟩
  rw [nCols_build]
  cases n <;> simp

theorem build_congr {m n : ℕ} {f g : ℕ → ℕ → ℚ}
    (h : ∀ i < m, ∀ j < n, f i j = g i j) : build m n f = build m n g := by
  unfold build
  refine List.map_congr_left fun i hi => List.map_congr_left fun j hj => ?_
  exact h i (List.mem_range.mp hi) j (List.mem_range.mp hj)

theorem build_entry_self {M : Mat} (h : Rect M) :
    build (nRows M) (nCols M) (fun i j => entry M i j) = M := by
  refine List.ext_getElem (by simp [build, nRows]) fun i h1 h2 => ?_
  have hi : i < nRows M := by simpa [nRows] using h2
  have hrow : (build (nRows M) (nCols M) fun i j => entry M i j)[i] =
      (List.range (nCols M)).map fun j => entry M i j := by
    simp [build]
  rw [hrow]
  have hlen : M[i].length = nCols M := h M[i] (List.getElem_mem h2)
  refine List.ext_getElem (by simpa using hlen.symm) fun j h3 h4 => ?_
  have hj : j < nCols M := by simpa using h3
  simp only [List.getElem_map, List.getElem_range]
  unfold entry
  rw [getD_eq_getElem _ _ h2, getD_eq_getElem _ _ h4]

/-! ### Shape preservation -/

theorem sq_normalize {n : ℕ} {M : Mat} (h : Sq n M) : Sq n (normalize M) := by
  obtain ⟨-, h1, h2⟩ := h
  unfold normalize
  rw [h1, h2]
  exact sq_build n _

theorem sq_elemPow {n : ℕ} {M : Mat} (h : Sq n M) (p : ℕ) : Sq n (elemPow M p) := by
  obtain ⟨-, h1, h2⟩ := h
  unfold elemPow
  rw [h1, h2]
  exact sq_build n _

theorem sq_inflate {n : ℕ} {M : Mat} (h : Sq n M) (p : ℕ) : Sq n (inflate M p) :=
  sq_normalize (sq_elemPow h p)

theorem sq_prune {n : ℕ} {M : Mat} (h : Sq n M) (t : ℚ) : Sq n (prune M t) := by
  obtain ⟨-, h1, h2⟩ := h
  unfold prune
  rw [h1, h2]
  exact sq_build n _

theorem sq_setDiag {n : ℕ} {M : Mat} (h : Sq n M) (v : ℚ) : Sq n (setDiag M v) := by
  obtain ⟨-, h1, h2⟩ := h
  unfold setDiag
  rw [h1, h2]
  exact sq_build n _

theorem sq_eye (n : ℕ) : Sq n (eye n) := sq_build n _

theorem sq_matMul {n : ℕ} {A B : Mat} (hA : Sq n A) (hB : Sq n B) :
    Sq n (matMul A B) := by
  obtain ⟨-, hA1, -⟩ := hA
  obtain ⟨-, -, hB2⟩ := hB
  unfold matMul
  rw [hA1, hB2]
  exact sq_build n _

theorem sq_matpow {n : ℕ} {M : Mat} (h : Sq n M) (p : ℕ) : Sq n (matpow M p) := by
  induction p with
  | zero =>
    unfold matpow
    rw [h.2.1]
    exact sq_eye n
  | succ k ih => exact sq_matMul ih h

/-! ### Entry-level reasoning and matrix algebra -/

theorem sq_ext {n : ℕ} {A B : Mat} (hA : Sq n A) (hB : Sq n B)
    (h : ∀ i < n, ∀ j < n, entry A i j = entry B i j) : A = B := by
  rw [← build_entry_self hA.1, ← build_entry_self hB.1,
    hA.2.1, hA.2.2, hB.2.1, hB.2.2]
  exact build_congr h

theorem matMul_as_build {n : ℕ} {A B : Mat} (hA : Sq n A) (hB : Sq n B) :
    matMul A B = build n n (fun i j => ∑ k ∈ Finset.range n, entry A i k * entry B k j) := by
  unfold matMul
  rw [hA.2.1, hA.2.2, hB.2.2]

theorem entry_matMul {n : ℕ} {A B : Mat} (hA : Sq n A) (hB : Sq n B) {i j : ℕ}
    (hi : i < n) (hj : j < n) :
    entry (matMul A B) i j = ∑ k ∈ Finset.range n, entry A i k * entry B k j := by
  rw [matMul_as_build hA hB, entry_build_lt _ hi hj]

theorem entry_eye {n i j : ℕ} (hi : i < n) (hj : j < n) :
    entry (eye n) i j = if i = j then 1 else 0 :=
  entry_build_lt _ hi hj

theorem matMul_assoc {n : ℕ} {A B C : Mat} (hA : Sq n A) (hB : Sq n B) (hC : Sq n C) :
    matMul (matMul A B) C = matMul A (matMul B C) := by
  refine sq_ext (sq_matMul (sq_matMul hA hB) hC) (sq_matMul hA (sq_matMul hB hC))
    fun i hi j hj => ?_
  rw [entry_matMul (sq_matMul hA hB) hC hi hj, entry_matMul hA (sq_matMul hB hC) hi hj]
  rw [Finset.sum_congr rfl fun k hk =>
    congrArg (· * entry C k j) (entry_matMul hA hB hi (Finset.mem_range.mp hk))]
  rw [Finset.sum_congr rfl fun k hk =>
    congrArg (entry A i k * ·) (entry_matMul hB hC (Finset.mem_range.mp hk) hj)]
  simp_rw [Finset.sum_mul, Finset.mul_sum]
  rw [Finset.sum_comm]
  exact Finset.sum_congr rfl fun l _ => Finset.sum_congr rfl fun k _ => mul_assoc _ _ _

theorem matMul_eye {n : ℕ} {A : Mat} (hA : Sq n A) : matMul A (eye n) = A := by
  refine sq_ext (sq_matMul hA (sq_eye n)) hA fun i hi j hj => ?_
  rw [entry_matMul hA (sq_eye n) hi hj]
  rw [Finset.sum_congr rfl fun k hk =>
    congrArg (entry A i k * ·) (entry_eye (Finset.mem_range.mp hk) hj)]
  simp_rw [mul_ite, mul_one, mul_zero]
  rw [Finset.sum_ite_eq' (Finset.range n) j (fun k => entry A i k)]
  simp [Finset.mem_range.mpr hj]

theorem eye_matMul {n : ℕ} {A : Mat} (hA : Sq n A) : matMul (eye n) A = A := by
  refine sq_ext (sq_matMul (sq_eye n) hA) hA fun i hi j hj => ?_
  rw [entry_matMul (sq_eye n) hA hi hj]
  rw [Finset.sum_congr rfl fun k hk =>
    congrArg (· * entry A k j) (entry_eye hi (Finset.mem_range.mp hk))]
  simp_rw [ite_mul, one_mul, zero_mul]
  rw [Finset.sum_ite_eq (Finset.range n) i (fun k => entry A k j)]
  simp [Finset.mem_range.mpr hi]

theorem matpow_zero {n : ℕ} {M : Mat} (h : Sq n M) : matpow M 0 = eye n := by
  unfold matpow
  rw [h.2.1]

theorem matpow_one {n : ℕ} {M : Mat} (h : Sq n M) : matpow M 1 = M := by
  show matMul (matpow M 0) M = M
  rw [matpow_zero h]
  exact eye_matMul h

theorem matpow_two {n : ℕ} {M : Mat} (h : Sq n M) : matpow M 2 = matMul M M := by
  show matMul (matpow M 1) M = matMul M M
  rw [matpow_one h]

theorem matpow_add {n : ℕ} {M : Mat} (h : Sq n M) (a b : ℕ) :
    matpow M (a + b) = matMul (matpow M a) (matpow M b) := by
  induction b with
  | zero =>
    rw [matpow_zero h, matMul_eye (sq_matpow h a)]
    rfl
  | succ k ih =>
    show matMul (matpow M (a + k)) M = matMul (matpow M a) (matMul (matpow M k) M)
    rw [ih, matMul_assoc (sq_matpow h a) (sq_matpow h k) h]

theorem matpow_sq_base {n : ℕ} {M : Mat} (h : Sq n M) (k : ℕ) :
    matpow (matMul M M) k = matpow M (2 * k) := by
  induction k with
  | zero =>
    rw [matpow_zero (sq_matMul h h), Nat.mul_zero, matpow_zero h]
  | succ j ih =>
    show matMul (matpow (matMul M M) j) (matMul M M) = _
    rw [ih, ← matpow_two h, ← matpow_add h (2 * j) 2, Nat.mul_succ]

/-! ### Correctness of the two binary exponentiation algorithms -/

theorem npLoop_zero (a : Mat) (z r : Option Mat) : npLoop a 0 z r = r := by
  rw [npLoop]
  rfl

theorem npLoop_some_some {d : ℕ} (a : Mat) :
    ∀ n, 1 ≤ n → ∀ z r : Mat, Sq d z → Sq d r →
      npLoop a n (some z) (some r) = some (matMul r (matpow z (2 * n))) := by
  intro n
  induction n using Nat.strong_induction_on with
  | _ n ih =>
    intro hn z r hz hr
    rw [npLoop, dif_neg (by omega : ¬ n = 0)]
    simp only [Option.elim_some]
    by_cases hb : n % 2 = 1
    · rw [if_pos hb]
      by_cases hq : n / 2 = 0
      · have hn1 : n = 1 := by omega
        subst hn1
        rw [show (1 : ℕ) / 2 = 0 from rfl, npLoop_zero, Nat.mul_one, matpow_two hz]
      · rw [ih (n / 2) (by omega) (by omega) (matMul z z) (matMul r (matMul z z))
          (sq_matMul hz hz) (sq_matMul hr (sq_matMul hz hz))]
        rw [matpow_sq_base hz (2 * (n / 2)),
          matMul_assoc hr (sq_matMul hz hz) (sq_matpow hz _),
          ← matpow_two hz, ← matpow_add hz 2 (2 * (2 * (n / 2))),
          show 2 + 2 * (2 * (n / 2)) = 2 * n by omega]
    · rw [if_neg hb]
      rw [ih (n / 2) (by omega) (by omega) (matMul z z) r (sq_matMul hz hz) hr]
      rw [matpow_sq_base hz (2 * (n / 2)), show 2 * (2 * (n / 2)) = 2 * n by omega]

theorem npLoop_some_none {d : ℕ} (a : Mat) :
    ∀ n, 1 ≤ n → ∀ z : Mat, Sq d z →
      npLoop a n (some z) none = some (matpow z (2 * n)) := by
  intro n
  induction n using Nat.strong_induction_on with
  | _ n ih =>
    intro hn z hz
    rw [npLoop, dif_neg (by omega : ¬ n = 0)]
    simp only [Option.elim_some, Option.elim_none]
    by_cases hb : n % 2 = 1
    · rw [if_pos hb]
      by_cases hq : n / 2 = 0
      · have hn1 : n = 1 := by omega
        subst hn1
        rw [show (1 : ℕ) / 2 = 0 from rfl, npLoop_zero, Nat.mul_one, matpow_two hz]
      · rw [npLoop_some_some a (n / 2) (by omega) (matMul z z) (matMul z z)
          (sq_matMul hz hz) (sq_matMul hz hz)]
        rw [matpow_sq_base hz (2 * (n / 2)),
          ← matpow_two hz, ← matpow_add hz 2 (2 * (2 * (n / 2))),
          show 2 + 2 * (2 * (n / 2)) = 2 * n by omega]
    · rw [if_neg hb]
      rw [ih (n / 2) (by omega) (by omega) (matMul z z) (sq_matMul hz hz)]
      rw [matpow_sq_base hz (2 * (n / 2)), show 2 * (2 * (n / 2)) = 2 * n by omega]

theorem npLoop_none_none {d n : ℕ} {a : Mat} (ha : Sq d a) (hn : 1 ≤ n) :
    npLoop a n none none = some (matpow a n) := by
  rw [npLoop, dif_neg (by omega : ¬ n = 0)]
  simp only [Option.elim_none]
  by_cases hb : n % 2 = 1
  · rw [if_pos hb]
    by_cases hq : n / 2 = 0
    · have hn1 : n = 1 := by omega
      subst hn1
      rw [show (1 : ℕ) / 2 = 0 from rfl, npLoop_zero, matpow_one ha]
    · rw [npLoop_some_some a (n / 2) (by omega) a a ha ha]
      have h1 : matMul a (matpow a (2 * (n / 2))) = matpow a (1 + 2 * (n / 2)) := by
        rw [matpow_add ha 1 (2 * (n / 2)), matpow_one ha]
      rw [h1, show 1 + 2 * (n / 2) = n by omega]
  · rw [if_neg hb]
    rw [npLoop_some_none a (n / 2) (by omega) a ha, show 2 * (n / 2) = n by omega]

theorem np_matrix_power_eq {d : ℕ} {M : Mat} (h : Sq d M) (p : ℕ) :
    np_matrix_power M p = matpow M p := by
  by_cases h0 : p = 0
  · subst h0
    show eye (nRows M) = matpow M 0
    rw [matpow_zero h, h.2.1]
  by_cases h1 : p = 1
  · subst h1
    show M = matpow M 1
    rw [matpow_one h]
  by_cases h2 : p = 2
  · subst h2
    show matMul M M = matpow M 2
    rw [matpow_two h]
  by_cases h3 : p = 3
  · subst h3
    show matMul (matMul M M) M = matpow M 3
    rw [← matpow_two h]
    rfl
  · unfold np_matrix_power
    rw [if_neg h0, if_neg h1, if_neg h2, if_neg h3, npLoop_none_none h (by omega)]
    rfl

theorem spPow_eq {d : ℕ} {M : Mat} (h : Sq d M) :
    ∀ p, spPow M p = matpow M p := by
  intro p
  induction p using Nat.strong_induction_on with
  | _ p ih =>
    by_cases h0 : p = 0
    · subst h0
      rw [spPow]
      norm_num
      rw [matpow_zero h, h.2.1]
    by_cases h1 : p = 1
    · subst h1
      rw [spPow]
      norm_num
      rw [matpow_one h]
    · rw [spPow, dif_neg h0, dif_neg h1, ih (p / 2) (by omega)]
      by_cases hb : p % 2 = 1
      · rw [if_pos hb]
        have hM1 : matMul M (matpow M (p / 2)) = matpow M (1 + p / 2) := by
          rw [matpow_add h 1 (p / 2), matpow_one h]
        rw [hM1, ← matpow_add h (1 + p / 2) (p / 2),
          show 1 + p / 2 + p / 2 = p by omega]
      · rw [if_neg hb, ← matpow_add h (p / 2) (p / 2),
          show p / 2 + p / 2 = p by omega]

theorem expand_eq {d : ℕ} {M : Mat} (h : Sq d M) (sp : Bool) (p : ℕ) :
    expand sp M p = matpow M p := by
  cases sp
  · exact np_matrix_power_eq h p
  · exact spPow_eq h p

theorem sq_expand {d : ℕ} {M : Mat} (h : Sq d M) (sp : Bool) (p : ℕ) :
    Sq d (expand sp M p) := by
  rw [expand_eq h sp p]
  exact sq_matpow h p

/-! ### Non-negativity preservation and column sums -/

/-- The plain sum of column `j` (for non-negative matrices this agrees with
the L1 norm `colNorm` used by `normalize`). -/
def colSum (M : Mat) (j : ℕ) : ℚ := ∑ i ∈ Finset.range (nRows M), entry M i j

theorem colNorm_eq_colSum {n : ℕ} {M : Mat} (h : Sq n M) (hnn : Nonneg M)
    {j : ℕ} (hj : j < n) : colNorm M j = colSum M j := by
  refine Finset.sum_congr rfl fun i hi => ?_
  exact abs_of_nonneg (hnn i (Finset.mem_range.mp hi) j (h.2.2 ▸ hj))

theorem colNorm_nonneg (M : Mat) (j : ℕ) : 0 ≤ colNorm M j :=
  Finset.sum_nonneg fun _ _ => abs_nonneg _

theorem nonneg_normalize {n : ℕ} {M : Mat} (h : Sq n M) (hnn : Nonneg M) :
    Nonneg (normalize M) := by
  intro i hi j hj
  have hsq := sq_normalize h
  rw [hsq.2.1] at hi
  rw [hsq.2.2] at hj
  unfold normalize
  rw [entry_build_lt _ (h.2.1 ▸ hi) (h.2.2 ▸ hj)]
  refine div_nonneg (hnn i (h.2.1 ▸ hi) j (h.2.2 ▸ hj)) ?_
  by_cases hc : colNorm M j = 0
  · rw [if_pos hc]
    norm_num
  · rw [if_neg hc]
    exact colNorm_nonneg M j

theorem nonneg_elemPow {n : ℕ} {M : Mat} (h : Sq n M) (hnn : Nonneg M) (p : ℕ) :
    Nonneg (elemPow M p) := by
  intro i hi j hj
  have hsq := sq_elemPow h p
  rw [hsq.2.1] at hi
  rw [hsq.2.2] at hj
  unfold elemPow
  rw [entry_build_lt _ (h.2.1 ▸ hi) (h.2.2 ▸ hj)]
  exact pow_nonneg (hnn i (h.2.1 ▸ hi) j (h.2.2 ▸ hj)) p

theorem nonneg_inflate {n : ℕ} {M : Mat} (h : Sq n M) (hnn : Nonneg M) (p : ℕ) :
    Nonneg (inflate M p) :=
  nonneg_normalize (sq_elemPow h p) (nonneg_elemPow h hnn p)

theorem nonneg_prune {n : ℕ} {M : Mat} (h : Sq n M) (hnn : Nonneg M) (t : ℚ) :
    Nonneg (prune M t) := by
  intro i hi j hj
  have hsq := sq_prune h t
  rw [hsq.2.1] at hi
  rw [hsq.2.2] at hj
  unfold prune
  rw [entry_build_lt _ (h.2.1 ▸ hi) (h.2.2 ▸ hj)]
  by_cases hc : entry M i j < t
  · rw [if_pos hc]
  · rw [if_neg hc]
    exact hnn i (h.2.1 ▸ hi) j (h.2.2 ▸ hj)

theorem nonneg_matMul {n : ℕ} {A B : Mat} (hA : Sq n A) (hB : Sq n B)
    (hnA : Nonneg A) (hnB : Nonneg B) : Nonneg (matMul A B) := by
  intro i hi j hj
  have hsq := sq_matMul hA hB
  rw [hsq.2.1] at hi
  rw [hsq.2.2] at hj
  rw [entry_matMul hA hB hi hj]
  refine Finset.sum_nonneg fun k hk => mul_nonneg ?_ ?_
  · exact hnA i (hA.2.1 ▸ hi) k (hA.2.2 ▸ Finset.mem_range.mp hk)
  · exact hnB k (hB.2.1 ▸ Finset.mem_range.mp hk) j (hB.2.2 ▸ hj)

theorem nonneg_eye (n : ℕ) : Nonneg (eye n) := by
  intro i hi j hj
  have hsq := sq_eye n
  rw [hsq.2.1] at hi
  rw [hsq.2.2] at hj
  rw [entry_eye hi hj]
  by_cases hc : i = j <;> simp [hc]

theorem nonneg_matpow {n : ℕ} {M : Mat} (h : Sq n M) (hnn : Nonneg M) (p : ℕ) :
    Nonneg (matpow M p) := by
  induction p with
  | zero =>
    rw [matpow_zero h]
    exact nonneg_eye n
  | succ k ih => exact nonneg_matMul (sq_matpow h k) h ih hnn

theorem nonneg_expand {n : ℕ} {M : Mat} (h : Sq n M) (hnn : Nonneg M)
    (sp : Bool) (p : ℕ) : Nonneg (expand sp M p) := by
  rw [expand_eq h sp p]
  exact nonneg_matpow h hnn p

/-! ### Characterization of `normalize` and `prune` -/

theorem entry_normalize {n : ℕ} {M : Mat} (h : Sq n M) {i j : ℕ}
    (hi : i < n) (hj : j < n) :
    entry (normalize M) i j =
      entry M i j / (if colNorm M j = 0 then 1 else colNorm M j) := by
  unfold normalize
  exact entry_build_lt _ (h.2.1 ▸ hi) (h.2.2 ▸ hj)

theorem entry_prune {n : ℕ} {M : Mat} (h : Sq n M) {i j : ℕ}
    (hi : i < n) (hj : j < n) (t : ℚ) :
    entry (prune M t) i j = if entry M i j < t then 0 else entry M i j := by
  unfold prune
  exact entry_build_lt _ (h.2.1 ▸ hi) (h.2.2 ▸ hj)

theorem colSum_zero_entries {n : ℕ} {M : Mat} (h : Sq n M) (hnn : Nonneg M)
    {j : ℕ} (hj : j < n) (hz : colSum M j = 0) :
    ∀ i < n, entry M i j = 0 := by
  intro i hi
  have hjc : j < nCols M := by rw [h.2.2]; exact hj
  have hir : i < nRows M := by rw [h.2.1]; exact hi
  have hall := (Finset.sum_eq_zero_iff_of_nonneg fun k hk =>
    hnn k (Finset.mem_range.mp hk) j hjc).mp hz
  exact hall i (Finset.mem_range.mpr hir)

theorem colSum_normalize {n : ℕ} {M : Mat} (h : Sq n M) (hnn : Nonneg M)
    {j : ℕ} (hj : j < n) (hz : colSum M j ≠ 0) :
    colSum (normalize M) j = 1 := by
  have hsq := sq_normalize h
  unfold colSum
  rw [hsq.2.1]
  rw [Finset.sum_congr rfl fun i hi => entry_normalize h (Finset.mem_range.mp hi) hj]
  rw [colNorm_eq_colSum h hnn hj, if_neg hz, ← Finset.sum_div]
  rw [show (∑ i ∈ Finset.range n, entry M i j) = colSum M j by rw [colSum, h.2.1]]
  exact div_self hz

/-! ### The convergence check -/

/-- The element-wise approximate-equality property both branches of
`converged` decide. -/
def Close (a b : Mat) : Prop :=
  ∀ i < nRows a, ∀ j < nCols a,
    |entry a i j - entry b i j| ≤ atol + rtol * |entry b i j|

theorem allclose_iff (a b : Mat) : allclose a b = true ↔ Close a b := by
  unfold allclose Close
  simp only [List.all_eq_true, List.mem_range, decide_eq_true_eq]

theorem mem_cList {a b : Mat} {x : ℚ} :
    x ∈ cList a b ↔ ∃ i < nRows a, ∃ j < nCols a,
      x = |entry a i j - entry b i j| - rtol * |entry b i j| := by
  unfold cList
  simp only [List.mem_flatMap, List.mem_map, List.mem_range]
  constructor
  · rintro ⟨i, hi, j, hj, rfl⟩
    exact ⟨i, hi, j, hj, rfl⟩
  · rintro ⟨i, hi, j, hj, rfl⟩
    exact ⟨i, hi, j, hj, rfl⟩

theorem cList_ne_nil {a b : Mat} (hr : 1 ≤ nRows a) (hc : 1 ≤ nCols a) :
    cList a b ≠ [] := by
  intro hnil
  have hx : |entry a 0 0 - entry b 0 0| - rtol * |entry b 0 0| ∈ cList a b :=
    mem_cList.mpr ⟨0, hr, 0, hc, rfl⟩
  rw [hnil] at hx
  exact List.not_mem_nil _ hx

theorem sparse_allclose_iff {a b : Mat} (hr : 1 ≤ nRows a) (hc : 1 ≤ nCols a) :
    sparse_allclose a b = true ↔ Close a b := by
  unfold sparse_allclose
  cases hmax : (cList a b).max? with
  | none => exact absurd (List.max?_eq_none_iff.mp hmax) (cList_ne_nil hr hc)
  | some m =>
    simp only [decide_eq_true_eq]
    rw [List.max?_le_iff (fun x y z => max_le_iff) hmax]
    unfold Close
    constructor
    · intro hall i hi j hj
      have := hall _ (mem_cList.mpr ⟨i, hi, j, hj, rfl⟩)
      linarith
    · intro hcl x hx
      obtain ⟨i, hi, j, hj, rfl⟩ := mem_cList.mp hx
      have := hcl i hi j hj
      linarith

theorem converged_iff {a b : Mat} (hr : 1 ≤ nRows a) (hc : 1 ≤ nCols a)
    (sp1 sp2 : Bool) : converged sp1 sp2 a b = true ↔ Close a b := by
  unfold converged
  cases sp1 <;> cases sp2 <;>
    simp only [Bool.or_self, Bool.or_true, Bool.true_or, Bool.false_or,
      if_true, if_false, Bool.false_eq_true] <;>
    first
      | exact allclose_iff a b
      | exact sparse_allclose_iff hr hc

theorem close_refl (a : Mat) : Close a a := by
  intro i hi j hj
  have h1 : |entry a i j - entry a i j| = 0 := by simp
  rw [h1]
  have h2 : 0 ≤ rtol * |entry a i j| := by
    have : (0 : ℚ) ≤ rtol := by norm_num [rtol]
    exact mul_nonneg this (abs_nonneg _)
  have : (0 : ℚ) < atol := by norm_num [atol]
  linarith

/-! ### Claim C2: the convergence check -/

/-- C2: for every pair of same-shape matrices with at least one entry,
`converged` returns true iff every entry pair `(a, b)` satisfies
`|a - b| ≤ atol + rtol * |b|` (with `rtol = 1e-5`, `atol = 1e-8`), regardless
of the dense/sparse storage of either operand; `converged M M` is always
true; and the result is unchanged when an operand is swapped between dense
and sparse representations of the same logical matrix. -/
theorem claim_C2 (a b : Mat) (hra : 1 ≤ nRows a) (hca : 1 ≤ nCols a)
    (hrb : nRows b = nRows a) (hcb : nCols b = nCols a) :
    (∀ sp1 sp2 : Bool, converged sp1 sp2 a b = true ↔ Close a b) ∧
    (∀ sp1 sp2 : Bool, converged sp1 sp2 a a = true) ∧
    (∀ sp1 sp2 sp3 sp4 : Bool, converged sp1 sp2 a b = converged sp3 sp4 a b) := by
  refine ⟨fun sp1 sp2 => converged_iff hra hca sp1 sp2, ?_, ?_⟩
  · exact fun sp1 sp2 => (converged_iff hra hca sp1 sp2).mpr (close_refl a)
  · intro sp1 sp2 sp3 sp4
    have h12 := @converged_iff a b hra hca sp1 sp2
    have h34 := @converged_iff a b hra hca sp3 sp4
    by_cases hcl : Close a b
    · rw [h12.mpr hcl, h34.mpr hcl]
    · rw [Bool.eq_false_iff.mpr fun he => hcl (h12.mp he),
        Bool.eq_false_iff.mpr fun he => hcl (h34.mp he)]

theorem claim_C2_witness :
    (∀ sp1 sp2 : Bool, converged sp1 sp2 [[1, 0], [0, 1]] [[1, 0], [0, 1]] = true ↔
      Close [[1, 0], [0, 1]] [[1, 0], [0, 1]]) ∧
    (∀ sp1 sp2 : Bool, converged sp1 sp2 [[1, 0], [0, 1]] [[1, 0], [0, 1]] = true) ∧
    (∀ sp1 sp2 sp3 sp4 : Bool, converged sp1 sp2 [[1, 0], [0, 1]] [[1, 0], [0, 1]] =
      converged sp3 sp4 [[1, 0], [0, 1]] [[1, 0], [0, 1]]) :=
  claim_C2 [[1, 0], [0, 1]] [[1, 0], [0, 1]]
    (by decide) (by decide) (by decide) (by decide)

/-! ### Claim C3: normalization -/

/-- C3: for every square non-negative matrix, `normalize` scales each column
by the reciprocal of that column's sum (so each non-zero column of the result
sums to 1), columns of zero sum stay entirely zero, the divisor used is
always strictly positive (no division by zero), and the shape is
preserved. -/
theorem claim_C3 {n : ℕ} {M : Mat} (h : Sq n M) (hnn : Nonneg M) :
    Sq n (normalize M) ∧
    (∀ j < n, 0 < (if colNorm M j = 0 then (1 : ℚ) else colNorm M j)) ∧
    (∀ j < n, colSum M j = 0 → ∀ i < n, entry (normalize M) i j = 0) ∧
    (∀ j < n, colSum M j ≠ 0 →
      (∀ i < n, entry (normalize M) i j = entry M i j / colSum M j) ∧
      colSum (normalize M) j = 1) := by
  refine ⟨sq_normalize h, ?_, ?_, ?_⟩
  · intro j hj
    by_cases hc : colNorm M j = 0
    · rw [if_pos hc]
      norm_num
    · rw [if_neg hc]
      exact lt_of_le_of_ne (colNorm_nonneg M j) (Ne.symm hc)
  · intro j hj hz i hi
    rw [entry_normalize h hi hj, colSum_zero_entries h hnn hj hz i hi, zero_div]
  · intro j hj hz
    refine ⟨fun i hi => ?_, colSum_normalize h hnn hj hz⟩
    rw [entry_normalize h hi hj, colNorm_eq_colSum h hnn hj, if_neg hz]

theorem claim_C3_witness :
    (Sq 2 (normalize [[1, 0], [1, 0]]) ∧
    (∀ j < 2, 0 < (if colNorm [[1, 0], [1, 0]] j = 0 then (1 : ℚ)
      else colNorm [[1, 0], [1, 0]] j)) ∧
    (∀ j < 2, colSum [[1, 0], [1, 0]] j = 0 →
      ∀ i < 2, entry (normalize [[1, 0], [1, 0]]) i j = 0) ∧
    (∀ j < 2, colSum [[1, 0], [1, 0]] j ≠ 0 →
      (∀ i < 2, entry (normalize [[1, 0], [1, 0]]) i j =
        entry [[1, 0], [1, 0]] i j / colSum [[1, 0], [1, 0]] j) ∧
      colSum (normalize [[1, 0], [1, 0]]) j = 1)) :=
  @claim_C3 2 [[1, 0], [1, 0]] (by decide) (by with_unfolding_all decide)

/-! ### Claim C6: pruning -/

/-- C6: for every square matrix and threshold, `prune` zeroes exactly the
entries strictly below the threshold, keeps the entries at or above it
unchanged, preserves the shape, and for a non-negative matrix `prune M 0`
is the identity transform. -/
theorem claim_C6 {n : ℕ} {M : Mat} (h : Sq n M) (t : ℚ) :
    Sq n (prune M t) ∧
    (∀ i < n, ∀ j < n,
      (entry M i j < t → entry (prune M t) i j = 0) ∧
      (t ≤ entry M i j → entry (prune M t) i j = entry M i j)) ∧
    (Nonneg M → prune M 0 = M) := by
  refine ⟨sq_prune h t, ?_, ?_⟩
  · intro i hi j hj
    constructor
    · intro hlt
      rw [entry_prune h hi hj t, if_pos hlt]
    · intro hge
      rw [entry_prune h hi hj t, if_neg (not_lt.mpr hge)]
  · intro hnn
    refine sq_ext (sq_prune h 0) h fun i hi j hj => ?_
    rw [entry_prune h hi hj 0, if_neg (not_lt.mpr (hnn i (h.2.1 ▸ hi) j (h.2.2 ▸ hj)))]

theorem claim_C6_witness :
    Sq 2 (prune [[1, 1 / 1000], [0, 2]] (1 / 100)) ∧
    (∀ i < 2, ∀ j < 2,
      (entry [[1, 1 / 1000], [0, 2]] i j < 1 / 100 →
        entry (prune [[1, 1 / 1000], [0, 2]] (1 / 100)) i j = 0) ∧
      (1 / 100 ≤ entry [[1, 1 / 1000], [0, 2]] i j →
        entry (prune [[1, 1 / 1000], [0, 2]] (1 / 100)) i j =
          entry [[1, 1 / 1000], [0, 2]] i j)) ∧
    (Nonneg [[1, 1 / 1000], [0, 2]] →
      prune [[1, 1 / 1000], [0, 2]] 0 = [[1, 1 / 1000], [0, 2]]) :=
  @claim_C6 2 [[1, 1 / 1000], [0, 2]] (by decide) (1 / 100)

/-! ### Claim C5: expansion is true matrix power -/

/-- Matrix power by repeated standard matrix multiplication, exactly as the
claim describes it: `repPow M 1 = M`, `repPow M (p+1) = repPow M p * M`
(`repPow M 0` is set to `M`; only `p ≥ 1` is ever used). -/
def repPow (M : Mat) : ℕ → Mat
  | 0 => M
  | 1 => M
  | k + 2 => matMul (repPow M (k + 1)) M

theorem repPow_eq {n : ℕ} {M : Mat} (h : Sq n M) :
    ∀ p, 1 ≤ p → repPow M p = matpow M p := by
  intro p
  induction p using Nat.strong_induction_on with
  | _ p ih =>
    intro hp
    match p, hp with
    | 1, _ =>
      rw [matpow_one h]
      rfl
    | (k + 2), _ =>
      show matMul (repPow M (k + 1)) M = matpow M (k + 2)
      rw [ih (k + 1) (by omega) (by omega)]
      rfl

/-- C5: for every square matrix `M` and integer `p ≥ 1`, both the dense path
(`np.linalg.matrix_power`) and the sparse path (scipy `**`) of `expand`
compute the `p`-th matrix power by repeated standard matrix multiplication
(not elementwise exponentiation); in particular `expand M 1 = M` on both
paths, and the two paths agree. -/
theorem claim_C5 {n : ℕ} {M : Mat} (h : Sq n M) {p : ℕ} (hp : 1 ≤ p) :
    expand false M p = repPow M p ∧
    expand true M p = repPow M p ∧
    expand false M 1 = M ∧
    expand true M 1 = M ∧
    expand true M p = expand false M p := by
  have hd := expand_eq h false p
  have hs := expand_eq h true p
  have hr := repPow_eq h p hp
  refine ⟨hd.trans hr.symm, hs.trans hr.symm, ?_, ?_, hs.trans hd.symm⟩
  · rw [expand_eq h false 1, matpow_one h]
  · rw [expand_eq h true 1, matpow_one h]

theorem claim_C5_witness :
    expand false [[1, 2], [3, 4]] 3 = repPow [[1, 2], [3, 4]] 3 ∧
    expand true [[1, 2], [3, 4]] 3 = repPow [[1, 2], [3, 4]] 3 ∧
    expand false [[1, 2], [3, 4]] 1 = [[1, 2], [3, 4]] ∧
    expand true [[1, 2], [3, 4]] 1 = [[1, 2], [3, 4]] ∧
    expand true [[1, 2], [3, 4]] 3 = expand false [[1, 2], [3, 4]] 3 :=
  @claim_C5 2 [[1, 2], [3, 4]] (by decide) 3 (by decide)

/-! ### Claim C1: the driver pipeline against the spec's pipeline -/

/-- Modelled from the spec (§4.7 step 1): "add self-loops by setting every
diagonal entry to the configured self-loop value (off-diagonal entries
untouched)". -/
def specInit (M : Mat) (v : ℚ) : Mat :=
  build (nRows M) (nCols M) fun i j => if i = j then v else entry M i j

/-- Modelled from the spec (§4.7 step 2): one round "applies expand, then
inflate, then — if pruning threshold > 0 — prune". -/
def specRound (sp : Bool) (e p : ℕ) (pr : ℚ) (m : Mat) : Mat :=
  let afterExpand := expand sp m e
  let afterInflate := inflate afterExpand p
  if 0 < pr then prune afterInflate pr else afterInflate

/-- Modelled from the spec (§4.7 steps 2–3): up to the iteration cap,
snapshot the current matrix as `previous`, compute the round, stop as soon
as `converged current previous` holds; the last computed matrix is kept
either way. -/
def specLoop (sp : Bool) (e p : ℕ) (pr : ℚ) : ℕ → Mat → Mat
  | 0, m => m
  | fuel + 1, m =>
    let previous := m
    let current := specRound sp e p pr m
    if converged sp sp current previous then current
    else specLoop sp e p pr fuel current

/-- Modelled from the spec (§4.7): set the diagonal, column-normalize, then
run at most `iters` rounds with early exit on convergence. -/
def spec_pipeline (sp : Bool) (M : Mat) (e p : ℕ) (v : ℚ) (iters : ℕ) (pr : ℚ) : Mat :=
  specLoop sp e p pr iters (normalize (specInit M v))

theorem mclLoop_fst_eq_specLoop (sp : Bool) (e p : ℕ) (pr : ℚ) :
    ∀ fuel i m, (mclLoop sp e p pr fuel i m).1 = specLoop sp e p pr fuel m := by
  intro fuel
  induction fuel with
  | zero => intro i m; rfl
  | succ k ih =>
    intro i m
    show (if converged sp sp (iterate sp m e p pr) m then (iterate sp m e p pr, some i)
      else mclLoop sp e p pr k (i + 1) (iterate sp m e p pr)).1 =
      if converged sp sp (specRound sp e p pr m) m then specRound sp e p pr m
      else specLoop sp e p pr k (specRound sp e p pr m)
    have hsr : specRound sp e p pr m = iterate sp m e p pr := rfl
    rw [hsr]
    by_cases hc : converged sp sp (iterate sp m e p pr) m
    · rw [if_pos hc, if_pos hc]
    · rw [if_neg hc, if_neg hc]
      exact ih (i + 1) (iterate sp m e p pr)

/-- C1: for every square non-negative matrix, `run_mcl` returns exactly the
result of the spec's pipeline: set the diagonal to `loop_value`,
column-normalize, then at most `iters` rounds of expand → inflate →
(if `pruning > 0`) prune with early exit on `converged current previous`;
the last computed matrix is returned whether or not convergence occurred,
and exhausting the cap raises no error. -/
theorem claim_C1 {n : ℕ} {M : Mat} (h : Sq n M) (hnn : Nonneg M) (sp : Bool)
    (e p : ℕ) (v : ℚ) (iters : ℕ) (pr : ℚ) :
    run_mcl sp M e p v iters pr = .ok (spec_pipeline sp M e p v iters pr) := by
  unfold run_mcl add_self_loops
  rw [if_pos (h.2.1.trans h.2.2.symm)]
  show Except.ok ((mclLoop sp e p pr iters 0 (normalize (setDiag M v))).1) = _
  rw [mclLoop_fst_eq_specLoop]
  rfl

theorem claim_C1_witness :
    run_mcl false [[1, 1], [0, 1]] 2 2 1 3 (1 / 1000) =
      .ok (spec_pipeline false [[1, 1], [0, 1]] 2 2 1 3 (1 / 1000)) :=
  @claim_C1 2 [[1, 1], [0, 1]] (by decide)
    (by with_unfolding_all decide) false 2 2 1 3 (1 / 1000)

/-! ### Claim C8: the squareness/non-negativity invariant -/

/-- The run invariant: a well-formed `n × n` matrix with non-negative
entries. -/
def Ok (n : ℕ) (M : Mat) : Prop := Sq n M ∧ Nonneg M

instance (n : ℕ) (M : Mat) : Decidable (Ok n M) :=
  inferInstanceAs (Decidable (_ ∧ _))

theorem nonneg_setDiag {n : ℕ} {M : Mat} (h : Sq n M) (hnn : Nonneg M) {v : ℚ}
    (hv : 0 ≤ v) : Nonneg (setDiag M v) := by
  intro i hi j hj
  have hsq := sq_setDiag h v
  rw [hsq.2.1] at hi
  rw [hsq.2.2] at hj
  unfold setDiag
  rw [entry_build_lt _ (h.2.1 ▸ hi) (h.2.2 ▸ hj)]
  by_cases hc : i = j
  · rw [if_pos hc]
    exact hv
  · rw [if_neg hc]
    exact hnn i (h.2.1 ▸ hi) j (h.2.2 ▸ hj)

theorem ok_iterate {n : ℕ} {m : Mat} (h : Ok n m) (sp : Bool) (e p : ℕ) (pr : ℚ) :
    Ok n (iterate sp m e p pr) := by
  have h1 : Sq n (expand sp m e) := sq_expand h.1 sp e
  have h1n : Nonneg (expand sp m e) := nonneg_expand h.1 h.2 sp e
  have h2 : Sq n (inflate (expand sp m e) p) := sq_inflate h1 p
  have h2n : Nonneg (inflate (expand sp m e) p) := nonneg_inflate h1 h1n p
  show Ok n (if 0 < pr then prune (inflate (expand sp m e) p) pr
    else inflate (expand sp m e) p)
  by_cases hpr : 0 < pr
  · rw [if_pos hpr]
    exact ⟨sq_prune h2 pr, nonneg_prune h2 h2n pr⟩
  · rw [if_neg hpr]
    exact ⟨h2, h2n⟩

theorem ok_mclLoop {n : ℕ} (sp : Bool) (e p : ℕ) (pr : ℚ) :
    ∀ fuel i (m : Mat), Ok n m → Ok n ((mclLoop sp e p pr fuel i m).1) := by
  intro fuel
  induction fuel with
  | zero => intro i m h; exact h
  | succ k ih =>
    intro i m h
    show Ok n ((if converged sp sp (iterate sp m e p pr) m then
        (iterate sp m e p pr, some i)
      else mclLoop sp e p pr k (i + 1) (iterate sp m e p pr)).1)
    by_cases hc : converged sp sp (iterate sp m e p pr) m
    · rw [if_pos hc]
      exact ok_iterate h sp e p pr
    · rw [if_neg hc]
      exact ih (i + 1) _ (ok_iterate h sp e p pr)

/-- C8: the invariant "square of dimension `n × n` with all entries
non-negative" is preserved by each of `expand`, `inflate`, `prune` and
`normalize`; consequently it holds for the matrix at every point of the
`run_mcl` iteration and for the returned matrix (for a non-negative
`loop_value`, as the spec's data model requires). -/
theorem claim_C8 {n : ℕ} (sp : Bool) (e p : ℕ) (t pr : ℚ) {v : ℚ} (hv : 0 ≤ v)
    (iters : ℕ) :
    (∀ M, Ok n M → Ok n (expand sp M e)) ∧
    (∀ M, Ok n M → Ok n (inflate M p)) ∧
    (∀ M, Ok n M → Ok n (prune M t)) ∧
    (∀ M, Ok n M → Ok n (normalize M)) ∧
    (∀ M, Ok n M → ∀ fuel i, Ok n ((mclLoop sp e p pr fuel i M).1)) ∧
    (∀ M, Ok n M → ∃ R, run_mcl sp M e p v iters pr = Except.ok R ∧ Ok n R) := by
  refine ⟨fun M h => ⟨sq_expand h.1 sp e, nonneg_expand h.1 h.2 sp e⟩,
    fun M h => ⟨sq_inflate h.1 p, nonneg_inflate h.1 h.2 p⟩,
    fun M h => ⟨sq_prune h.1 t, nonneg_prune h.1 h.2 t⟩,
    fun M h => ⟨sq_normalize h.1, nonneg_normalize h.1 h.2⟩,
    fun M h fuel i => ok_mclLoop sp e p pr fuel i M h, fun M h => ?_⟩
  refine ⟨(mclLoop sp e p pr iters 0 (normalize (setDiag M v))).1, ?_, ?_⟩
  · unfold run_mcl add_self_loops
    rw [if_pos (h.1.2.1.trans h.1.2.2.symm)]
    rfl
  · have hd : Ok n (setDiag M v) := ⟨sq_setDiag h.1 v, nonneg_setDiag h.1 h.2 hv⟩
    have hn : Ok n (normalize (setDiag M v)) :=
      ⟨sq_normalize hd.1, nonneg_normalize hd.1 hd.2⟩
    exact ok_mclLoop sp e p pr iters 0 _ hn

theorem claim_C8_witness :
    (∀ M, Ok 2 M → Ok 2 (expand false M 2)) ∧
    (∀ M, Ok 2 M → Ok 2 (inflate M 2)) ∧
    (∀ M, Ok 2 M → Ok 2 (prune M (1 / 1000))) ∧
    (∀ M, Ok 2 M → Ok 2 (normalize M)) ∧
    (∀ M, Ok 2 M → ∀ fuel i, Ok 2 ((mclLoop false 2 2 (1 / 1000) fuel i M).1)) ∧
    (∀ M, Ok 2 M → ∃ R, run_mcl false M 2 2 1 3 (1 / 1000) = Except.ok R ∧ Ok 2 R) :=
  @claim_C8 2 false 2 2 (1 / 1000) (1 / 1000) 1
    (by with_unfolding_all decide) 3

/-! ### Claim C9: the end-to-end run on the example graph -/

/-- The matrix `run_mcl` returns on the module-level example `graph` with
the default parameters (`expansion = 2`, `inflation = 2`, `loop_value = 1`,
`iterations = 10`, `pruning = 0.001`). -/
def mclFinal : Mat :=
  [[0, 0, 0, 0, 0, 0, 0],
   [0, 0, 0, 0, 0, 0, 0],
   [1, 1, 1, 0, 0, 0, 0],
   [0, 0, 0, 0, 0, 0, 0],
   [0, 0, 0, 1 / 2, 1 / 2, 1 / 2, 1 / 2],
   [0, 0, 0, 0, 0, 0, 0],
   [0, 0, 0, 1 / 2, 1 / 2, 1 / 2, 1 / 2]]

/-- Support of column `j`: the row indices of its non-zero entries. -/
def colSupp (M : Mat) (j : ℕ) : List ℕ :=
  (List.range (nRows M)).filter fun i => decide (entry M i j ≠ 0)

set_option maxRecDepth 1000000 in
/-- C9: `run_mcl` on the 7-node two-block example graph with the default
parameters converges at loop index 8, within the 10-iteration cap, and the
non-zero column supports of the returned matrix partition the 7 nodes into
exactly two groups matching the block structure: columns 0–2 share the
support `{2}` and columns 3–6 share the support `{4, 6}`. -/
theorem claim_C9 :
    run_mcl false graph 2 2 1 10 (1 / 1000) = .ok mclFinal ∧
    (mclLoop false 2 2 (1 / 1000) 10 0 (normalize (setDiag graph 1))).2 = some 8 ∧
    8 < 10 ∧
    (List.range 7).map (colSupp mclFinal) =
      [[2], [2], [2], [4, 6], [4, 6], [4, 6], [4, 6]] ∧
    (∀ j < 3, colSupp mclFinal j = [2]) ∧
    (∀ j, 3 ≤ j → j < 7 → colSupp mclFinal j = [4, 6]) ∧
    colSupp mclFinal 0 ≠ colSupp mclFinal 3 ∧
    colSupp mclFinal 0 ≠ [] ∧ colSupp mclFinal 3 ≠ [] := by
  refine ⟨?_, ?_, by norm_num, ?_, ?_, ?_, ?_, ?_, ?_⟩
  · with_unfolding_all rfl
  · with_unfolding_all rfl
  · with_unfolding_all rfl
  · with_unfolding_all decide
  · with_unfolding_all decide
  · with_unfolding_all decide
  · with_unfolding_all decide
  · with_unfolding_all decide

/-! ### Claim C4: inflation with a real exponent -/

/-- Real-valued matrices, used to state inflation for arbitrary real
exponents `r > 1`; the integer-exponent rational pipeline above is its
specialization. -/
abbrev RMat := List (List ℝ)

def nRowsR (M : RMat) : ℕ := M.length

def nColsR (M : RMat) : ℕ := (M.headD []).length

def entryR (M : RMat) (i j : ℕ) : ℝ := (M.getD i []).getD j 0

def buildR (m n : ℕ) (f : ℕ → ℕ → ℝ) : RMat :=
  (List.range m).map fun i => (List.range n).map fun j => f i j

theorem entryR_build_lt {m n i j : ℕ} (f : ℕ → ℕ → ℝ) (hi : i < m) (hj : j < n) :
    entryR (buildR m n f) i j = f i j := by
  unfold entryR buildR
  rw [getD_map_range]
  simp only [hi, if_true]
  rw [getD_map_range]
  simp [hj]

theorem nRowsR_build (m n : ℕ) (f : ℕ → ℕ → ℝ) : nRowsR (buildR m n f) = m := by
  simp [nRowsR, buildR]

theorem nColsR_build (m n : ℕ) (f : ℕ → ℕ → ℝ) :
    nColsR (buildR m n f) = if m = 0 then 0 else n := by
  cases m with
  | zero => simp [nColsR, buildR]
  | succ k => simp [nColsR, buildR, List.range_succ_eq_map]

noncomputable def colNormR (M : RMat) (j : ℕ) : ℝ :=
  ∑ i ∈ Finset.range (nRowsR M), |entryR M i j|

/-- `sklearn.preprocessing.normalize(matrix, norm="l1", axis=0)` over the
reals: divide each column by its L1 norm, zero norms replaced by 1 first
(so zero columns stay zero), exactly as in `normalize`. -/
noncomputable def normalizeR (M : RMat) : RMat :=
  buildR (nRowsR M) (nColsR M) fun i j =>
    entryR M i j / (if colNormR M j = 0 then 1 else colNormR M j)

/-- Elementwise real power (`np.power(matrix, power)` on the dense path,
`matrix.power(power)` on the sparse path), `x ^ r` being `Real.rpow`. -/
noncomputable def elemPowR (M : RMat) (r : ℝ) : RMat :=
  buildR (nRowsR M) (nColsR M) fun i j => entryR M i j ^ r

/-- The sparse branch of `inflate`: `normalize(matrix.power(power))`. -/
noncomputable def inflate_sparseR (M : RMat) (r : ℝ) : RMat :=
  normalizeR (elemPowR M r)

/-- The dense branch of `inflate`: `normalize(np.power(matrix, power))`. -/
noncomputable def inflate_denseR (M : RMat) (r : ℝ) : RMat :=
  normalizeR (elemPowR M r)

/-- C4: for every non-negative real matrix and real exponent `r > 1`,
`inflate` equals `normalize` applied to the elementwise `r`-th power of its
input, identically on the dense and sparse code paths, and every zero entry
of the input is still zero after inflation. -/
theorem claim_C4 {M : RMat} {r : ℝ} (hr : 1 < r)
    (hnn : ∀ i < nRowsR M, ∀ j < nColsR M, 0 ≤ entryR M i j) :
    inflate_sparseR M r = normalizeR (elemPowR M r) ∧
    inflate_denseR M r = normalizeR (elemPowR M r) ∧
    inflate_sparseR M r = inflate_denseR M r ∧
    (∀ i < nRowsR M, ∀ j < nColsR M, entryR M i j = 0 →
      entryR (inflate_denseR M r) i j = 0) := by
  refine ⟨rfl, rfl, rfl, ?_⟩
  intro i hi j hj hz
  have hm0 : nRowsR M ≠ 0 := by omega
  have h1 : nRowsR (elemPowR M r) = nRowsR M := nRowsR_build _ _ _
  have h2 : nColsR (elemPowR M r) = nColsR M := by
    unfold elemPowR
    rw [nColsR_build, if_neg hm0]
  have hzN : entryR (elemPowR M r) i j = 0 := by
    unfold elemPowR
    rw [entryR_build_lt _ hi hj, hz]
    exact Real.zero_rpow (by linarith)
  unfold inflate_denseR normalizeR
  rw [h1, h2, entryR_build_lt _ hi hj, hzN, zero_div]

theorem claim_C4_witness :
    inflate_sparseR [[0]] 2 = normalizeR (elemPowR [[0]] 2) ∧
    inflate_denseR [[0]] 2 = normalizeR (elemPowR [[0]] 2) ∧
    inflate_sparseR [[0]] 2 = inflate_denseR [[0]] 2 ∧
    (∀ i < nRowsR [[0]], ∀ j < nColsR [[0]], entryR [[0]] i j = 0 →
      entryR (inflate_denseR [[0]] 2) i j = 0) :=
  claim_C4 (by norm_num) (by
    intro i hi j hj
    have hi1 : i < 1 := hi
    have hj1 : j < 1 := hj
    have hi0 : i = 0 := by omega
    have hj0 : j = 0 := by omega
    subst hi0
    subst hj0
    exact le_of_eq rfl)

/-! ### Claim C7: failure on non-square inputs -/

/-- C7 (counterexample): on the non-square matrix `[[1, 0]]` the operations
requiring squareness do fail, but none raises a `ShapeError`:
`add_self_loops` raises `AssertionError` from its `assert`, and `expand`
propagates the library errors (`ValueError`/`LinAlgError` from numpy's
`matrix_power`, `TypeError` from scipy's `**`); no `ShapeError` class exists
anywhere in `mcl.py`. -/
theorem claim_C7_counterexample :
    add_self_loops [[1, 0]] 1 =
      .error (.assertionError "Error, matrix is not square") ∧
    expand_checked false [[1, 0]] 2 = .error .numpyNonSquareError ∧
    expand_checked true [[1, 0]] 2 = .error .scipyNonSquareError ∧
    PyErr.assertionError "Error, matrix is not square" ≠ PyErr.shapeError ∧
    PyErr.numpyNonSquareError ≠ PyErr.shapeError ∧
    PyErr.scipyNonSquareError ≠ PyErr.shapeError := by
  refine ⟨rfl, rfl, rfl, by decide, by decide, by decide⟩

/-- C7 (amended): for every non-square matrix, `add_self_loops` and
`expand` each fail rather than returning a matrix — `add_self_loops` with
the `AssertionError` of its squareness assert, `expand` with the non-square
error of the library it calls — and in neither case is the error the
spec's `ShapeError`. -/
theorem claim_C7_amended {M : Mat} (h : nRows M ≠ nCols M) (v : ℚ) (p : ℕ) :
    add_self_loops M v =
      .error (.assertionError "Error, matrix is not square") ∧
    expand_checked false M p = .error .numpyNonSquareError ∧
    expand_checked true M p = .error .scipyNonSquareError ∧
    (∀ R : Mat, add_self_loops M v ≠ .ok R) ∧
    (∀ sp : Bool, ∀ R : Mat, expand_checked sp M p ≠ .ok R) ∧
    (∀ e : PyErr, add_self_loops M v = .error e → e ≠ .shapeError) ∧
    (∀ sp : Bool, ∀ e : PyErr, expand_checked sp M p = .error e → e ≠ .shapeError) := by
  have ha : add_self_loops M v =
      .error (.assertionError "Error, matrix is not square") := by
    unfold add_self_loops
    rw [if_neg h]
  have hef : expand_checked false M p = .error .numpyNonSquareError := by
    unfold expand_checked
    rw [if_neg h]
    rfl
  have het : expand_checked true M p = .error .scipyNonSquareError := by
    unfold expand_checked
    rw [if_neg h]
    rfl
  refine ⟨ha, hef, het, ?_, ?_, ?_, ?_⟩
  · intro R hR
    rw [ha] at hR
    exact Except.noConfusion hR
  · intro sp R hR
    cases sp
    · rw [hef] at hR
      exact Except.noConfusion hR
    · rw [het] at hR
      exact Except.noConfusion hR
  · intro e he
    rw [ha] at he
    have : PyErr.assertionError "Error, matrix is not square" = e := by
      injection he
    rw [← this]
    decide
  · intro sp e he
    cases sp
    · rw [hef] at he
      have : PyErr.numpyNonSquareError = e := by injection he
      rw [← this]
      decide
    · rw [het] at he
      have : PyErr.scipyNonSquareError = e := by injection he
      rw [← this]
      decide

theorem claim_C7_amended_witness :
    add_self_loops [[1, 0, 0], [0, 1, 0]] 1 =
      .error (.assertionError "Error, matrix is not square") ∧
    expand_checked false [[1, 0, 0], [0, 1, 0]] 2 = .error .numpyNonSquareError ∧
    expand_checked true [[1, 0, 0], [0, 1, 0]] 2 = .error .scipyNonSquareError ∧
    (∀ R : Mat, add_self_loops [[1, 0, 0], [0, 1, 0]] 1 ≠ .ok R) ∧
    (∀ sp : Bool, ∀ R : Mat, expand_checked sp [[1, 0, 0], [0, 1, 0]] 2 ≠ .ok R) ∧
    (∀ e : PyErr, add_self_loops [[1, 0, 0], [0, 1, 0]] 1 = .error e →
      e ≠ .shapeError) ∧
    (∀ sp : Bool, ∀ e : PyErr, expand_checked sp [[1, 0, 0], [0, 1, 0]] 2 = .error e →
      e ≠ .shapeError) :=
  @claim_C7_amended [[1, 0, 0], [0, 1, 0]] (by decide) 1 2

/-! ### Claim C10: aliasing behaviour (heap model)

The value-level embedding above cannot see Python's in-place mutation, so
the three operations the claim names are re-embedded over an explicit heap
of matrix buffers.  Python variables holding matrices are heap references
(indices); `copy()`/constructor calls allocate fresh buffers; indexed
assignment overwrites a buffer in place.  The storage kind of the argument
matters because of scipy's conversion semantics: `dok_matrix.todok(copy=False)`
returns the receiver itself, whereas a CSC input's `todok()` (via `tocoo`)
and a dense input's `copy()` build fresh objects. -/

/-- Storage kind of the argument matrix object. -/
inductive SKind where
  | dense
  | csc
  | dok
deriving DecidableEq, Repr

/-- A heap of matrix buffers. -/
structure Store where
  cells : List Mat
deriving DecidableEq, Repr

/-- Dereference: the value of buffer `r`. -/
def readS (s : Store) (r : ℕ) : Mat := s.cells.getD r []

/-- Number of allocated buffers; also the next fresh reference. -/
def sizeS (s : Store) : ℕ := s.cells.length

/-- Allocate a fresh buffer holding `m` (its reference is `sizeS s`). -/
def pushS (s : Store) (m : Mat) : Store := ⟨s.cells ++ [m]⟩

/-- Overwrite buffer `r` in place. -/
def writeS (s : Store) (r : ℕ) (m : Mat) : Store := ⟨s.cells.set r m⟩

/-- In-place indexed assignment `m[i, j] = v` on a buffer's value. -/
def setEntry (M : Mat) (i j : ℕ) (v : ℚ) : Mat :=
  M.set i ((M.getD i []).set j v)

/-- The in-place diagonal loop of `add_self_loops`
(`for i in range(n): new_matrix[i, i] = loop_value`) acting on buffer `w`. -/
def diagLoop (s : Store) (w : ℕ) (n : ℕ) (v : ℚ) : Store :=
  (List.range n).foldl (fun st i => writeS st w (setEntry (readS st w) i i v)) s

/-- Heap-level `add_self_loops` (the post-assert part; the assert precedes
every write, so a non-square argument is never written).  The copy step
(`matrix.copy()` dense / `matrix.todok()` sparse) allocates a fresh buffer —
except for a DOK argument, where scipy's `todok(copy=False)` returns the
argument object itself, so the diagonal loop then writes into the caller's
buffer.  On the sparse paths the final `tocsc()` allocates the returned
buffer. -/
def add_self_loops_st (k : SKind) (s : Store) (arg : ℕ) (v : ℚ) : Store × ℕ :=
  let w := if k = SKind.dok then arg else sizeS s
  let s1 := if k = SKind.dok then s else pushS s (readS s arg)
  let s2 := diagLoop s1 w (nRows (readS s arg)) v
  if k = SKind.dense then (s2, w) else (pushS s2 (readS s2 w), sizeS s2)

/-- Heap-level `prune`: the dense path copies the argument into a fresh
buffer (`matrix.copy()`) and zeroes its small entries in place; the sparse
path fills a newly built zero `dok_matrix` with the kept entries and
converts it to a fresh CSC buffer.  The argument buffer is never written. -/
def prune_st (k : SKind) (s : Store) (arg : ℕ) (t : ℚ) : Store × ℕ :=
  if k = SKind.dense then
    (writeS (pushS s (readS s arg)) (sizeS s) (prune (readS s arg) t), sizeS s)
  else
    let s1 := pushS s (build (nRows (readS s arg)) (nCols (readS s arg)) fun _ _ => 0)
    let s2 := writeS s1 (sizeS s) (prune (readS s arg) t)
    (pushS s2 (readS s2 (sizeS s)), sizeS s2)

/-- Heap-level iteration loop of `run_mcl`: `last_mat = matrix.copy()`
allocates the snapshot, and `iterate` returns a freshly allocated result
(all of `expand`, `inflate` and `prune` return new objects). -/
def mclLoop_st (sp : Bool) (e p : ℕ) (pr : ℚ) : ℕ → Store → ℕ → Store × ℕ
  | 0, s, cur => (s, cur)
  | fuel + 1, s, cur =>
    let lastRef := sizeS s
    let s1 := pushS s (readS s cur)
    let curRef := sizeS s1
    let s2 := pushS s1 (iterate sp (readS s1 cur) e p pr)
    if converged sp sp (readS s2 curRef) (readS s2 lastRef) then (s2, curRef)
    else mclLoop_st sp e p pr fuel s2 curRef

/-- Heap-level `run_mcl`: `add_self_loops`, then `normalize` (sklearn
returns a fresh matrix), then the loop. -/
def run_mcl_st (k : SKind) (sp : Bool) (s : Store) (arg : ℕ) (e p : ℕ)
    (v : ℚ) (iters : ℕ) (pr : ℚ) : Store × ℕ :=
  let a := add_self_loops_st k s arg v
  let b := pushS a.1 (normalize (readS a.1 a.2))
  mclLoop_st sp e p pr iters b (sizeS a.1)

/-! #### Frame lemmas for the heap -/

theorem readS_pushS {s : Store} {r : ℕ} (h : r < sizeS s) (m : Mat) :
    readS (pushS s m) r = readS s r := by
  unfold readS pushS
  rw [List.getD_eq_getElem?_getD, List.getD_eq_getElem?_getD,
    List.getElem?_append_left h]

theorem sizeS_pushS (s : Store) (m : Mat) : sizeS (pushS s m) = sizeS s + 1 := by
  simp [sizeS, pushS]

theorem readS_writeS_ne {s : Store} {w r : ℕ} (h : r ≠ w) (m : Mat) :
    readS (writeS s w m) r = readS s r := by
  unfold readS writeS
  rw [List.getD_eq_getElem?_getD, List.getD_eq_getElem?_getD,
    List.getElem?_set_ne (fun he => h he.symm)]

theorem sizeS_writeS (s : Store) (w : ℕ) (m : Mat) :
    sizeS (writeS s w m) = sizeS s := by
  simp [sizeS, writeS]

theorem readS_diagLoop_ne {w r : ℕ} (h : r ≠ w) (n : ℕ) (v : ℚ) :
    ∀ s, readS (diagLoop s w n v) r = readS s r := by
  unfold diagLoop
  induction (List.range n) with
  | nil => intro s; rfl
  | cons a as ih =>
    intro s
    rw [List.foldl_cons, ih, readS_writeS_ne h]

theorem sizeS_diagLoop (w n : ℕ) (v : ℚ) :
    ∀ s, sizeS (diagLoop s w n v) = sizeS s := by
  unfold diagLoop
  induction (List.range n) with
  | nil => intro s; rfl
  | cons a as ih =>
    intro s
    rw [List.foldl_cons, ih, sizeS_writeS]

theorem add_self_loops_st_frame {k : SKind} (hk : k ≠ SKind.dok) {s : Store}
    {arg : ℕ} (h : arg < sizeS s) (v : ℚ) :
    readS (add_self_loops_st k s arg v).1 arg = readS s arg ∧
    sizeS s ≤ sizeS (add_self_loops_st k s arg v).1 := by
  unfold add_self_loops_st
  rw [if_neg hk, if_neg hk]
  have hwne : arg ≠ sizeS s := by omega
  have hread : readS (diagLoop (pushS s (readS s arg)) (sizeS s)
      (nRows (readS s arg)) v) arg = readS s arg := by
    rw [readS_diagLoop_ne hwne, readS_pushS h]
  have hsize : sizeS (diagLoop (pushS s (readS s arg)) (sizeS s)
      (nRows (readS s arg)) v) = sizeS s + 1 := by
    rw [sizeS_diagLoop, sizeS_pushS]
  by_cases hd : k = SKind.dense
  · rw [if_pos hd]
    refine ⟨hread, ?_⟩
    show sizeS s ≤ sizeS (diagLoop (pushS s (readS s arg)) (sizeS s)
      (nRows (readS s arg)) v)
    rw [hsize]
    omega
  · rw [if_neg hd]
    refine ⟨?_, ?_⟩
    · show readS (pushS (diagLoop (pushS s (readS s arg)) (sizeS s)
        (nRows (readS s arg)) v)
        (readS (diagLoop (pushS s (readS s arg)) (sizeS s)
          (nRows (readS s arg)) v) (sizeS s))) arg = readS s arg
      rw [readS_pushS (by rw [hsize]; omega), hread]
    · show sizeS s ≤ sizeS (pushS (diagLoop (pushS s (readS s arg)) (sizeS s)
        (nRows (readS s arg)) v)
        (readS (diagLoop (pushS s (readS s arg)) (sizeS s)
          (nRows (readS s arg)) v) (sizeS s)))
      rw [sizeS_pushS, hsize]
      omega

theorem prune_st_frame (k : SKind) {s : Store} {arg : ℕ} (h : arg < sizeS s)
    (t : ℚ) :
    readS (prune_st k s arg t).1 arg = readS s arg := by
  unfold prune_st
  have hwne : arg ≠ sizeS s := by omega
  by_cases hd : k = SKind.dense
  · rw [if_pos hd]
    show readS (writeS (pushS _ _) (sizeS s) _) arg = readS s arg
    rw [readS_writeS_ne hwne, readS_pushS h]
  · rw [if_neg hd]
    show readS (pushS (writeS (pushS _ _) (sizeS s) _) _) arg = readS s arg
    rw [readS_pushS (by rw [sizeS_writeS, sizeS_pushS]; omega),
      readS_writeS_ne hwne, readS_pushS h]

theorem mclLoop_st_frame (sp : Bool) (e p : ℕ) (pr : ℚ) :
    ∀ fuel (s : Store) (cur r : ℕ), r < sizeS s →
      readS (mclLoop_st sp e p pr fuel s cur).1 r = readS s r := by
  intro fuel
  induction fuel with
  | zero => intro s cur r h; rfl
  | succ f ih =>
    intro s cur r h
    show readS (if converged sp sp _ _ then (pushS (pushS s _) _, sizeS (pushS s _))
      else mclLoop_st sp e p pr f (pushS (pushS s _) _) (sizeS (pushS s _))).1 r =
      readS s r
    have hs2 : readS (pushS (pushS s (readS s cur))
        (iterate sp (readS (pushS s (readS s cur)) cur) e p pr)) r = readS s r := by
      rw [readS_pushS (by rw [sizeS_pushS]; omega), readS_pushS h]
    by_cases hc : converged sp sp
        (readS (pushS (pushS s (readS s cur))
          (iterate sp (readS (pushS s (readS s cur)) cur) e p pr))
          (sizeS (pushS s (readS s cur))))
        (readS (pushS (pushS s (readS s cur))
          (iterate sp (readS (pushS s (readS s cur)) cur) e p pr)) (sizeS s))
    · rw [if_pos hc]
      exact hs2
    · rw [if_neg hc]
      rw [ih _ _ r (by rw [sizeS_pushS, sizeS_pushS]; omega)]
      exact hs2

theorem run_mcl_st_frame {k : SKind} (hk : k ≠ SKind.dok) {s : Store}
    {arg : ℕ} (h : arg < sizeS s) (sp : Bool) (e p : ℕ) (v : ℚ) (iters : ℕ)
    (pr : ℚ) :
    readS (run_mcl_st k sp s arg e p v iters pr).1 arg = readS s arg := by
  obtain ⟨hread, hsize⟩ := add_self_loops_st_frame hk h v
  unfold run_mcl_st
  rw [mclLoop_st_frame sp e p pr iters _ _ arg (by rw [sizeS_pushS]; omega),
    readS_pushS (by omega), hread]

/-- C10 (amended): for a dense or CSC argument, `add_self_loops`, `prune`
and `run_mcl` leave the caller's argument buffer unchanged (each works on a
freshly allocated copy); `prune` does so for every storage kind.  (For a DOK
argument, `add_self_loops` — and hence `run_mcl` — writes the self-loop
value into the caller's buffer, see the counterexample.) -/
theorem claim_C10_amended {k : SKind} (hk : k ≠ SKind.dok) {s : Store}
    {arg : ℕ} (h : arg < sizeS s) (v t pr : ℚ) (sp : Bool) (e p iters : ℕ) :
    readS (add_self_loops_st k s arg v).1 arg = readS s arg ∧
    (∀ k' : SKind, readS (prune_st k' s arg t).1 arg = readS s arg) ∧
    readS (run_mcl_st k sp s arg e p v iters pr).1 arg = readS s arg :=
  ⟨(add_self_loops_st_frame hk h v).1, fun k' => prune_st_frame k' h t,
    run_mcl_st_frame hk h sp e p v iters pr⟩

theorem claim_C10_amended_witness :
    readS (add_self_loops_st SKind.csc ⟨[[[1, 0], [0, 1]]]⟩ 0 1).1 0 =
      readS ⟨[[[1, 0], [0, 1]]]⟩ 0 ∧
    (∀ k' : SKind, readS (prune_st k' ⟨[[[1, 0], [0, 1]]]⟩ 0 (1 / 1000)).1 0 =
      readS ⟨[[[1, 0], [0, 1]]]⟩ 0) ∧
    readS (run_mcl_st SKind.csc true ⟨[[[1, 0], [0, 1]]]⟩ 0 2 2 1 10 (1 / 1000)).1 0 =
      readS ⟨[[[1, 0], [0, 1]]]⟩ 0 :=
  @claim_C10_amended SKind.csc (by decide) ⟨[[[1, 0], [0, 1]]]⟩
    0 (by decide) 1 (1 / 1000) (1 / 1000) true 2 2 10

/-- C10 (counterexample): for a DOK sparse argument the claim fails:
`matrix.todok()` is the argument itself, so `add_self_loops` (and therefore
`run_mcl`) overwrites the caller's diagonal in place — here the caller's
2×2 zero matrix has become the identity after the call. -/
theorem claim_C10_counterexample :
    readS ⟨[[[0, 0], [0, 0]]]⟩ 0 = [[0, 0], [0, 0]] ∧
    readS (add_self_loops_st SKind.dok ⟨[[[0, 0], [0, 0]]]⟩ 0 1).1 0 =
      [[1, 0], [0, 1]] ∧
    readS (run_mcl_st SKind.dok false ⟨[[[0, 0], [0, 0]]]⟩ 0 2 2 1 10 (1 / 1000)).1 0 =
      [[1, 0], [0, 1]] ∧
    ([[1, 0], [0, 1]] : Mat) ≠ [[0, 0], [0, 0]] := by
  refine ⟨rfl, ?_, ?_, ?_⟩
  · with_unfolding_all rfl
  · with_unfolding_all rfl
  · with_unfolding_all decide

end MCL
